import Mathlib

/-
Verification of the population-synthesis core of the starburst99-v7.1.0
Python port.  The embedded modules are:

  * src/python/models/imf.py            (class IMF)
  * src/python/models/stellar_tracks.py (class StellarTracks)
  * src/python/core/galaxy_module.py    (TrackData, GalaxyModel, ModelParameters)
  * src/python/starburst_main.py        (class Starburst99)

Python floats are modelled as real numbers; the numpy power operator is
modelled by Real.rpow and numpy log by Real.log, which agree with the
float semantics (up to rounding) on the nonnegative bases relevant to the
claims.  Python exceptions are modelled with Except / explicit outcome
types at the places where the embedded code can raise.
-/

namespace Starburst

/-- Errors the embedded Python code can raise at runtime. -/
inductive PyErr
  | indexError
  | zeroDivisionError
deriving DecidableEq, Repr

/-- Model of np.searchsorted(a, v) with the default side "left": on a
sorted array it returns the number of leading elements strictly below v. -/
noncomputable def ssLeft (v : ℝ) : List ℝ → ℕ
  | [] => 0
  | x :: xs => if x < v then ssLeft v xs + 1 else 0

/-- Model of np.interp(x, xp, fp) for increasing xp: clamp to fp.head
below the first knot, clamp to the last fp above the last knot, and
interpolate linearly between bracketing knots otherwise. -/
noncomputable def npInterp (x : ℝ) : List ℝ → List ℝ → ℝ
  | [], _ => 0
  | _ :: _, [] => 0
  | [_], y0 :: _ => y0
  | _ :: _ :: _, [_] => 0
  | x0 :: x1 :: xs, y0 :: y1 :: ys =>
    if x ≤ x0 then y0
    else if x < x1 then y0 + (x - x0) * (y1 - y0) / (x1 - x0)
    else npInterp x (x1 :: xs) (y1 :: ys)

/-! Stellar track model, from src/python/models/stellar_tracks.py.
A track is the per-mass dictionary built by StellarTracks.load_tracks:
parallel arrays keyed time, luminosity, temperature, radius,
mass_loss_rate (floats) and stellar_type (ints). -/

/-- One evolutionary track (the per-mass dictionary of load_tracks). -/
structure STrack where
  time : List ℝ
  luminosity : List ℝ
  temperature : List ℝ
  radius : List ℝ
  mass_loss_rate : List ℝ
  stellar_type : List ℤ

/-- Placeholder track used as the default of list indexing; it is never
reached under the hypotheses of the theorems below. -/
def dummyTrack : STrack := ⟨[], [], [], [], [], []⟩

/-- Result dictionary of StellarTracks.interpolate_track. -/
structure StellarProps where
  luminosity : ℝ
  temperature : ℝ
  radius : ℝ
  mass_loss_rate : ℝ
  stellar_type : ℤ

/-- Age lookup of the single-track branch of interpolate_track (lines
162-172): np.interp for the four continuous fields, and the discrete
stellar_type taken at np.clip(np.searchsorted(time, t), 0, len-1). -/
noncomputable def singleTrackProps (tr : STrack) (time : ℝ) : StellarProps :=
  { luminosity := npInterp time tr.time tr.luminosity
    temperature := npInterp time tr.time tr.temperature
    radius := npInterp time tr.time tr.radius
    mass_loss_rate := npInterp time tr.time tr.mass_loss_rate
    stellar_type := tr.stellar_type.getD (min (ssLeft time tr.time) (tr.stellar_type.length - 1)) 0 }

/-- Model of StellarTracks.interpolate_track (lines 99-172).  The table is
the per-metallicity dictionary, represented as the list of (initial mass,
track) pairs in ascending mass order (the source sorts the dictionary keys
and looks tracks up by key, so positional access below coincides with the
dictionary lookup whenever the masses are distinct). -/
noncomputable def interpolateTrack (table : List (ℝ × STrack)) (mass time : ℝ) :
    Option StellarProps :=
  if table.isEmpty then none
  else
    let masses := table.map Prod.fst
    if mass ≤ masses.getD 0 0 then
      some (singleTrackProps (table.getD 0 (0, dummyTrack)).2 time)
    else if masses.getD (masses.length - 1) 0 ≤ mass then
      some (singleTrackProps (table.getD (table.length - 1) (0, dummyTrack)).2 time)
    else
      let idx := ssLeft mass masses
      let m1 := masses.getD (idx - 1) 0
      let m2 := masses.getD idx 0
      let tr1 := (table.getD (idx - 1) (0, dummyTrack)).2
      let tr2 := (table.getD idx (0, dummyTrack)).2
      let w1 := (m2 - mass) / (m2 - m1)
      let w2 := (mass - m1) / (m2 - m1)
      let t1i := min (ssLeft time tr1.time) (tr1.stellar_type.length - 1)
      let t2i := min (ssLeft time tr2.time) (tr2.stellar_type.length - 1)
      some
        { luminosity := w1 * npInterp time tr1.time tr1.luminosity +
            w2 * npInterp time tr2.time tr2.luminosity
          temperature := w1 * npInterp time tr1.time tr1.temperature +
            w2 * npInterp time tr2.time tr2.temperature
          radius := w1 * npInterp time tr1.time tr1.radius +
            w2 * npInterp time tr2.time tr2.radius
          mass_loss_rate := w1 * npInterp time tr1.time tr1.mass_loss_rate +
            w2 * npInterp time tr2.time tr2.mass_loss_rate
          stellar_type := if 1 / 2 < w1 then tr1.stellar_type.getD t1i 0
            else tr2.stellar_type.getD t2i 0 }

/-- Final tabulated age of a track: track.time[-1]. -/
noncomputable def lastAge (tr : STrack) : ℝ := tr.time.getD (tr.time.length - 1) 0

/-- Model of StellarTracks.get_lifetime (lines 174-209): the final
tabulated age of the boundary track when the query mass is outside the
tabulated masses, and otherwise 10 to the power of np.interp applied in
log10-log10 space between the two bracketing tracks. -/
noncomputable def getLifetime (table : List (ℝ × STrack)) (mass : ℝ) : Option ℝ :=
  if table.isEmpty then none
  else
    let masses := table.map Prod.fst
    if mass ≤ masses.getD 0 0 then some (lastAge (table.getD 0 (0, dummyTrack)).2)
    else if masses.getD (masses.length - 1) 0 ≤ mass then
      some (lastAge (table.getD (table.length - 1) (0, dummyTrack)).2)
    else
      let idx := ssLeft mass masses
      let m1 := masses.getD (idx - 1) 0
      let m2 := masses.getD idx 0
      let life1 := lastAge (table.getD (idx - 1) (0, dummyTrack)).2
      let life2 := lastAge (table.getD idx (0, dummyTrack)).2
      let logLife := npInterp (Real.logb 10 mass)
        [Real.logb 10 m1, Real.logb 10 m2] [Real.logb 10 life1, Real.logb 10 life2]
      some ((10 : ℝ) ^ logLife)

/-- Model of TrackData.interpolate_in_time (galaxy_module.py lines
134-165) for one attribute row: ages = self.age[mass_idx, :] and vals the
matching attribute row.  The searchsorted index is pushed to 1 below the
first age and to num_points - 1 above the last, and the interpolation
factor f is not clamped, so the result extrapolates linearly on both
sides. -/
noncomputable def interpolateInTime (ages vals : List ℝ) (time : ℝ) : ℝ :=
  let idx0 := ssLeft time ages
  let idx := if idx0 = 0 then 1 else if ages.length ≤ idx0 then ages.length - 1 else idx0
  let t0 := ages.getD (idx - 1) 0
  let t1 := ages.getD idx 0
  let f := if t0 < t1 then (time - t0) / (t1 - t0) else 0
  vals.getD (idx - 1) 0 + f * (vals.getD idx 0 - vals.getD (idx - 1) 0)

/-! Initial mass function model, from src/python/models/imf.py. -/

/-- State of a constructed IMF object: the attributes set by
IMF.__init__. -/
structure IMFData where
  intervals : ℕ
  exponents : List ℝ
  massLimits : List ℝ

/-- Model of IMF._validate_parameters (lines 36-45): the three ValueError
checks, in source order.  np.all(np.diff(mass_limits) > 0) is adjacent
pairwise strict increase, i.e. List.Chain'. -/
noncomputable def validateParameters (intervals : ℕ) (exponents massLimits : List ℝ) :
    Except String Unit :=
  if exponents.length ≠ intervals then
    .error "Number of exponents must match number of intervals"
  else if massLimits.length ≠ intervals + 1 then
    .error "Number of mass limits must be intervals + 1"
  else if massLimits.Chain' (· < ·) then .ok ()
  else .error "Mass limits must be in increasing order"

/-- Model of IMF._calculate_normalizations (lines 47-57); this step is
total and cannot fail. -/
noncomputable def calcNormalizations (intervals : ℕ) (exponents massLimits : List ℝ) :
    List ℝ :=
  (List.range intervals).map fun i =>
    let e := exponents.getD i 0
    if e ≠ -1 then
      (massLimits.getD (i + 1) 0 ^ (e + 1) - massLimits.getD i 0 ^ (e + 1)) / (e + 1)
    else Real.log (massLimits.getD (i + 1) 0 / massLimits.getD i 0)

/-- Model of IMF.__init__ (lines 11-34): validate, then compute the
normalization constants.  Construction fails exactly when validation
raises. -/
noncomputable def mkIMF (intervals : ℕ) (exponents massLimits : List ℝ) :
    Except String (IMFData × List ℝ) :=
  match validateParameters intervals exponents massLimits with
  | .error e => .error e
  | .ok _ =>
    .ok (⟨intervals, exponents, massLimits⟩, calcNormalizations intervals exponents massLimits)

/-- Model of the effective IMF.xi (the second definition, lines 83-109,
which shadows the first) with interval auto-detection.  The two places
where the Python body can raise are made explicit: exponents[interval]
raises IndexError when the exponent array is empty (intervals = 0, where
np.clip(searchsorted - 1, 0, -1) yields index -1), and 1.0 / mass raises
ZeroDivisionError at mass = 0.  For intervals >= 1 the source index
np.clip(searchsorted(limits, mass) - 1, 0, intervals - 1) equals
min(searchsorted - 1, intervals - 1) with truncated subtraction. -/
noncomputable def xi (imf : IMFData) (mass : ℝ) : Except PyErr ℝ :=
  if mass < imf.massLimits.getD 0 0 ∨
      imf.massLimits.getD (imf.massLimits.length - 1) 0 < mass then .ok 0
  else if imf.intervals = 0 then .error .indexError
  else
    let interval := min (ssLeft mass imf.massLimits - 1) (imf.intervals - 1)
    let alpha := imf.exponents.getD interval 0
    if |alpha - 1| < 1 / 1000000 then
      if mass = 0 then .error .zeroDivisionError else .ok (1 / mass)
    else if alpha ≠ -1 then .ok (mass ^ (-alpha))
    else if mass = 0 then .error .zeroDivisionError else .ok (1 / mass)

/-- Model of IMF.integrate (lines 111-148): clamp the requested range to
the IMF domain, return 0 when the clamped range is empty or inverted, and
otherwise sum the closed-form contribution of every overlapping
interval. -/
noncomputable def integrate (imf : IMFData) (mLow mHigh : ℝ) : ℝ :=
  let a := max mLow (imf.massLimits.getD 0 0)
  let b := min mHigh (imf.massLimits.getD (imf.massLimits.length - 1) 0)
  if b ≤ a then 0
  else
    ∑ i in Finset.range imf.intervals,
      (let u := max a (imf.massLimits.getD i 0)
       let v := min b (imf.massLimits.getD (i + 1) 0)
       if u < v then
         (let alpha := imf.exponents.getD i 0
          if alpha ≠ -1 then
            if alpha ≠ 1 then (v ^ (-alpha + 1) - u ^ (-alpha + 1)) / (-alpha + 1)
            else Real.log (v / u)
          else Real.log (v / u))
       else 0)

/-- Inverse-CDF draw of one mass inside a chosen interval, from the body
of the sampling loop of IMF.sample (lines 199-212).  The degenerate
exponent alpha = 1 makes -alpha + 1 = 0; there the Python expression
divides 1 by the float 0.0 (giving inf without raising) and then raises a
base that is exactly 1.0 to that power, producing exactly 1.0 — the same
value the real-division convention 1/0 = 0 together with rpow gives
here. -/
noncomputable def sampleMass (imf : IMFData) (interval : ℕ) (u : ℝ) : ℝ :=
  let ml := imf.massLimits.getD interval 0
  let mh := imf.massLimits.getD (interval + 1) 0
  let alpha := imf.exponents.getD interval 0
  if alpha ≠ -1 then
    (u * (mh ^ (-alpha + 1) - ml ^ (-alpha + 1)) + ml ^ (-alpha + 1)) ^ (1 / (-alpha + 1))
  else ml * (mh / ml) ^ u

/-- Model of IMF.sample (lines 171-214).  np.random.seed(seed) makes the
subsequent np.random.choice and np.random.uniform draws a pure function
of the seed; the two draw sequences are abstracted as the streams
chooseSeq (the interval chosen for the k-th star, an index below
intervals for any correct categorical draw) and uSeq (the k-th uniform
draw in [0, 1]). -/
noncomputable def sample (imf : IMFData) (nStars : ℕ) (chooseSeq : ℕ → ℕ) (uSeq : ℕ → ℝ) :
    List ℝ :=
  (List.range nStars).map fun k => sampleMass imf (chooseSeq k) (uSeq k)

/-! Time-stepping driver model, from src/python/starburst_main.py. -/

/-- Value of self.tstep after GalaxyModel.__init__ (galaxy_module.py line
234).  No other statement in the package assigns tstep, so this is the
value the main loop multiplies by in logarithmic mode. -/
noncomputable def galaxyInitTstep : ℝ := 0

/-- Clock of Starburst99._main_calculation_loop in logarithmic mode
(jtime = 1, lines 285-367): each iteration runs the per-step computations
at the current time, then advances tvar (tvar = time1 at icount = 1, else
tvar * tstep) and sets time = tvar, then stops when icount >= itbiv,
else increments icount.  The recursion returns the list of times at which
the per-step computations ran; fuel bounds the loop. -/
noncomputable def logClockAux (time1 tstep : ℝ) (itbiv : ℕ) :
    ℕ → ℝ → ℝ → ℕ → List ℝ
  | 0, _, _, _ => []
  | fuel + 1, time, tvar, icount =>
    let tvar' := if icount = 1 then time1 else tvar * tstep
    if itbiv ≤ icount then [time]
    else time :: logClockAux time1 tstep itbiv fuel tvar' tvar' (icount + 1)

/-- Step times of a logarithmic-mode run: self.time starts at 0.0
(Starburst99.__init__ line 67), self.galaxy.tvar at 0.0 (galaxy_module
line 231) and self.icount at 1 (line 68). -/
noncomputable def logClockTimes (time1 tstep : ℝ) (itbiv : ℕ) : List ℝ :=
  logClockAux time1 tstep itbiv (itbiv + 1) 0 0 1

/-! Track-file reading policy, from Starburst99._read_tracks
(starburst_main.py lines 193-241) together with the exception handler of
Starburst99.run (lines 157-159), which logs and calls sys.exit(1). -/

/-- Observable outcome of _read_tracks inside a run. -/
inductive TrackReadOutcome
  | aborted
  | continuedLoaded (usedDefaultFile : Bool)
  | continuedDummy (usedDefaultFile : Bool)
deriving DecidableEq, Repr

/-- Control flow of _read_tracks: when the selected track path is missing
it falls back to the default path data/tracks/Z0140v00.txt; when that is
missing too it raises FileNotFoundError, which run() turns into
sys.exit(1).  Only an exception raised by load_tracks on the existing
path is caught and replaced by the dummy one-track TrackData
fallback. -/
def readTracksOutcome (selectedExists defaultExists loadOk : Bool) : TrackReadOutcome :=
  if selectedExists then
    if loadOk then .continuedLoaded false else .continuedDummy false
  else if defaultExists then
    if loadOk then .continuedLoaded true else .continuedDummy true
  else .aborted

/-! Helper lemmas about sorted lists, ssLeft and npInterp. -/

/-- In a chainwise strictly increasing list, the head is below every
element of the tail. -/
theorem chainLt_head_lt {x : ℝ} {xs : List ℝ} (h : (x :: xs).Chain' (· < ·)) :
    ∀ k, k < xs.length → x < xs.getD k 0 := by
  induction xs generalizing x with
  | nil => intro k hk; simp at hk
  | cons y ys ih =>
    intro k hk
    have hxy : x < y := (List.chain'_cons.mp h).1
    have hy : (y :: ys).Chain' (· < ·) := (List.chain'_cons.mp h).2
    cases k with
    | zero => simpa using hxy
    | succ k2 =>
      have := ih hy k2 (by simpa using hk)
      simp only [List.getD_cons_succ]
      exact hxy.trans this

/-- Chainwise strict increase gives strict monotonicity of positional
access. -/
theorem chainLt_getD_lt {l : List ℝ} (h : l.Chain' (· < ·)) :
    ∀ i j, i < j → j < l.length → l.getD i 0 < l.getD j 0 := by
  induction l with
  | nil => intro i j _ hj; simp at hj
  | cons x xs ih =>
    intro i j hij hj
    cases i with
    | zero =>
      cases j with
      | zero => omega
      | succ j2 =>
        simp only [List.getD_cons_zero, List.getD_cons_succ]
        exact chainLt_head_lt h j2 (by simpa using hj)
    | succ i2 =>
      cases j with
      | zero => omega
      | succ j2 =>
        simp only [List.getD_cons_succ]
        exact ih h.tail i2 j2 (by omega) (by simpa using hj)

/-- Weak monotonicity of positional access in a strictly increasing
list. -/
theorem chainLt_getD_le {l : List ℝ} (h : l.Chain' (· < ·)) :
    ∀ i j, i ≤ j → j < l.length → l.getD i 0 ≤ l.getD j 0 := by
  intro i j hij hj
  rcases Nat.lt_or_ge i j with h2 | h2
  · exact (chainLt_getD_lt h i j h2 hj).le
  · have : i = j := le_antisymm hij h2
    rw [this]

/-- Characterization of ssLeft: it returns k as soon as the first k
elements are below v and the element at k (when it exists) is not. -/
theorem ssLeft_eq {l : List ℝ} {v : ℝ} :
    ∀ {k : ℕ}, k ≤ l.length → (∀ i, i < k → l.getD i 0 < v) →
      (k < l.length → ¬ l.getD k 0 < v) → ssLeft v l = k := by
  induction l with
  | nil => intro k hk _ _; simp only [List.length_nil, Nat.le_zero] at hk; simp [ssLeft, hk]
  | cons x xs ih =>
    intro k hk hbefore hat
    cases k with
    | zero =>
      have hx : ¬ x < v := by simpa using hat (by simp)
      simp [ssLeft, hx]
    | succ k2 =>
      have hx : x < v := by simpa using hbefore 0 (Nat.succ_pos _)
      have htail : ssLeft v xs = k2 :=
        ih (by simpa using hk)
          (fun i hi => by simpa using hbefore (i + 1) (by omega))
          (fun hk2 => by simpa using hat (by simpa using hk2))
      simp [ssLeft, hx, htail]

/-- ssLeft of a value strictly between two adjacent elements of a sorted
list lands just above the lower bracket. -/
theorem ssLeft_of_between {l : List ℝ} (h : l.Chain' (· < ·)) {j : ℕ} {v : ℝ}
    (hj : j + 1 < l.length) (h1 : l.getD j 0 < v) (h2 : v ≤ l.getD (j + 1) 0) :
    ssLeft v l = j + 1 :=
  ssLeft_eq (by omega)
    (fun i hi => lt_of_le_of_lt (chainLt_getD_le h i j (by omega) (by omega)) h1)
    (fun _ => not_lt.mpr h2)

/-- ssLeft of an element of a sorted list is its index (side left counts
only the strictly smaller elements). -/
theorem ssLeft_getD_self {l : List ℝ} (h : l.Chain' (· < ·)) {k : ℕ} (hk : k < l.length) :
    ssLeft (l.getD k 0) l = k :=
  ssLeft_eq hk.le (fun i hi => chainLt_getD_lt h i k hi hk) (fun _ => lt_irrefl _)

/-- ssLeft is the length when every element is below v. -/
theorem ssLeft_all_lt {l : List ℝ} {v : ℝ} (hall : ∀ i, i < l.length → l.getD i 0 < v) :
    ssLeft v l = l.length :=
  ssLeft_eq le_rfl hall (fun hk => absurd hk (lt_irrefl _))

/-- np.interp clamps to the first knot value at or below the first
knot. -/
theorem npInterp_clamp_below {xp fp : List ℝ} {x : ℝ} (hxp : xp ≠ [])
    (hlen : fp.length = xp.length) (hx : x ≤ xp.getD 0 0) :
    npInterp x xp fp = fp.getD 0 0 := by
  match xp, fp with
  | [], _ => exact absurd rfl hxp
  | _ :: _, [] => simp at hlen
  | [x0], y0 :: yt => simp [npInterp]
  | x0 :: x1 :: xt, [y0] => simp at hlen
  | x0 :: x1 :: xt, y0 :: y1 :: yt =>
    have hx0 : x ≤ x0 := by simpa using hx
    simp [npInterp, hx0]

/-- np.interp clamps to the last knot value at or above the last knot. -/
theorem npInterp_clamp_above : ∀ {xp fp : List ℝ} {x : ℝ}, xp.Chain' (· < ·) →
    fp.length = xp.length → xp ≠ [] → xp.getD (xp.length - 1) 0 ≤ x →
    npInterp x xp fp = fp.getD (fp.length - 1) 0 := by
  intro xp
  induction xp with
  | nil => intro fp x _ _ hxp _; exact absurd rfl hxp
  | cons x0 xt ih =>
    intro fp x hchain hlen _ hx
    match xt, fp with
    | _, [] => simp at hlen
    | [], [y0] => simp [npInterp]
    | [], y0 :: y1 :: yt => simp at hlen
    | x1 :: xt2, [y0] => simp at hlen
    | x1 :: xt2, y0 :: y1 :: yt =>
      have hlast : (x1 :: xt2).getD xt2.length 0 ≤ x := by
        simpa using hx
      have hnle : ¬ x ≤ x0 := by
        push_neg
        refine lt_of_lt_of_le ?_ hlast
        have := chainLt_getD_lt hchain 0 (xt2.length + 1) (by omega) (by simp)
        simpa using this
      have hnlt : ¬ x < x1 := by
        push_neg
        refine le_trans ?_ hlast
        have := chainLt_getD_le hchain.tail 0 xt2.length (by omega) (by simp)
        simpa using this
      have hrec := @ih (y1 :: yt) x hchain.tail (by simpa using hlen)
        (by simp) (by simpa using hx)
      simp only [npInterp, if_neg hnle, if_neg hnlt]
      rw [hrec]
      simp

/-- np.interp evaluated exactly at the k-th knot of a strictly increasing
knot list returns the k-th value. -/
theorem npInterp_roundtrip : ∀ {xp fp : List ℝ}, xp.Chain' (· < ·) →
    fp.length = xp.length → ∀ {k : ℕ}, k < xp.length →
    npInterp (xp.getD k 0) xp fp = fp.getD k 0 := by
  intro xp
  induction xp with
  | nil => intro fp _ _ k hk; simp at hk
  | cons x0 xt ih =>
    intro fp hchain hlen k hk
    match xt, fp with
    | _, [] => simp at hlen
    | [], [y0] =>
      simp only [List.length_cons, List.length_nil] at hk
      have hk0 : k = 0 := by omega
      rw [hk0]
      simp [npInterp]
    | [], y0 :: y1 :: yt => simp at hlen
    | x1 :: xt2, [y0] => simp at hlen
    | x1 :: xt2, y0 :: y1 :: yt =>
      cases k with
      | zero => simp [npInterp]
      | succ j =>
        have hj2 : j < (x1 :: xt2).length := by simpa using hk
        have hgd : (x0 :: x1 :: xt2).getD (j + 1) 0 = (x1 :: xt2).getD j 0 := by simp
        have hnle : ¬ (x1 :: xt2).getD j 0 ≤ x0 := by
          push_neg
          have := chainLt_getD_lt hchain 0 (j + 1) (by omega) (by simpa using hk)
          rw [hgd] at this
          simpa using this
        have hnlt : ¬ (x1 :: xt2).getD j 0 < x1 := by
          push_neg
          have := chainLt_getD_le hchain.tail 0 j (by omega) hj2
          simpa using this
        have hrec := @ih (y1 :: yt) hchain.tail (by simpa using hlen) j hj2
        rw [hgd]
        simp only [npInterp, if_neg hnle, if_neg hnlt]
        rw [hrec]
        simp

/-- np.interp strictly inside a two-knot bracket is the linear
interpolation formula. -/
theorem npInterp_pair {a b ya yb x : ℝ} (h1 : a < x) (h2 : x < b) :
    npInterp x [a, b] [ya, yb] = ya + (x - a) * (yb - ya) / (b - a) := by
  simp [npInterp, not_le.mpr h1, h2]

/-- Validation helper: IMF._validate_parameters succeeds exactly when the
exponent count, the limit count and the strict increase all hold. -/
theorem validateParameters_ok_iff (n : ℕ) (e m : List ℝ) :
    validateParameters n e m = .ok () ↔
      (e.length = n ∧ m.length = n + 1 ∧ m.Chain' (· < ·)) := by
  unfold validateParameters
  by_cases h1 : e.length = n
  · by_cases h2 : m.length = n + 1
    · by_cases h3 : m.Chain' (· < ·) <;> simp [h1, h2, h3]
    · simp [h1, h2]
  · simp [h1]

/-! Claim theorems. -/

/-- Claim C2 (code_bug evaluation): in logarithmic clock mode with
time1 = 1, itbiv = 3 the driver visits the step times [0, 1, 0], because
the multiplier galaxy.tstep keeps its constructor value 0.0 (no statement
ever precomputes the ratio from (start, end, num_steps)); the visited
times are not the geometric sequence [1, 10^1.5, 1000] the claim
describes. -/
theorem log_clock_times_with_unset_ratio :
    logClockTimes 1 galaxyInitTstep 3 = [0, 1, 0] ∧
      logClockTimes 1 galaxyInitTstep 3 ≠ [1, Real.sqrt 1000, 1000] := by
  have h1 : logClockTimes 1 galaxyInitTstep 3 = [0, 1, 0] := by
    norm_num [logClockTimes, logClockAux, galaxyInitTstep]
  refine ⟨h1, ?_⟩
  rw [h1]
  intro h
  simp only [List.cons.injEq] at h
  exact absurd h.1 (by norm_num)

/-- Claim C3 (counterexample): when both the selected track file and the
fallback default file are missing, _read_tracks raises FileNotFoundError
and the run aborts via sys.exit(1); it does not substitute a degenerate
table and continue as the claim states. -/
theorem read_tracks_missing_both_aborts :
    readTracksOutcome false false true = .aborted ∧
      readTracksOutcome false false false = .aborted ∧
      TrackReadOutcome.aborted ≠ .continuedDummy false ∧
      TrackReadOutcome.aborted ≠ .continuedDummy true := by
  decide

/-- Claim C3 (amended): a missing selected track file is replaced by the
default track file, not by a degenerate table; the run aborts exactly
when the selected and the default file are both missing; the dummy
one-track TrackData substitution with a logged warning happens exactly
when the used file exists but loading it raises; loading succeeds exactly
when the used file exists and reads cleanly. -/
theorem read_tracks_fallback_policy :
    ∀ s d ok : Bool,
      (readTracksOutcome s d ok = .aborted ↔ s = false ∧ d = false) ∧
      (readTracksOutcome s d ok = .continuedDummy (!s) ↔ (s || d) = true ∧ ok = false) ∧
      (readTracksOutcome s d ok = .continuedLoaded (!s) ↔ (s || d) = true ∧ ok = true) := by
  decide

/-- Claim C3 (witness): with the selected file missing, the default file
present and a clean load, the run continues on the default file. -/
theorem read_tracks_fallback_policy_witness :
    readTracksOutcome false true true = .continuedLoaded true := by
  have h := (read_tracks_fallback_policy false true true).2.2
  exact h.mpr (by decide)

/-- Claim C6: IMF construction fails if and only if the exponent count
differs from the interval count, or the mass-limit count differs from
intervals + 1, or the mass limits are not strictly increasing.  The
failure happens inside __init__ (before any stepping starts) and nothing
in the class catches it. -/
theorem imf_validation_iff (n : ℕ) (e m : List ℝ) :
    (∃ msg, mkIMF n e m = Except.error msg) ↔
      (e.length ≠ n ∨ m.length ≠ n + 1 ∨ ¬ m.Chain' (· < ·)) := by
  have hok := validateParameters_ok_iff n e m
  have herr : (∃ msg, mkIMF n e m = Except.error msg) ↔
      ¬ validateParameters n e m = .ok () := by
    unfold mkIMF
    cases hv : validateParameters n e m with
    | error msg => simp [hv]
    | ok u => cases u; simp [hv]
  rw [herr, hok]
  tauto

/-- Claim C6 (witness): one exponent with two intervals declared is
rejected, while the Salpeter configuration is accepted. -/
theorem imf_validation_iff_witness :
    (∃ msg, mkIMF 2 [(2.35 : ℝ)] [1, 100] = Except.error msg) ∧
      ¬ (∃ msg, mkIMF 1 [(2.35 : ℝ)] [1, 100] = Except.error msg) := by
  constructor
  · exact (imf_validation_iff 2 [(2.35 : ℝ)] [1, 100]).mpr (Or.inl (by norm_num))
  · rw [imf_validation_iff 1 [(2.35 : ℝ)] [1, 100]]
    push_neg
    refine ⟨by norm_num, by norm_num, ?_⟩
    simp [List.chain'_cons]

/-- IMF with one interval, exponent -3 and the strictly increasing but
negative mass limits [-2, -1]; it passes _validate_parameters. -/
noncomputable def imfNeg : IMFData := ⟨1, [-3], [-2, -1]⟩

/-- Claim C10 (counterexample): for the valid IMF with limits [-2, -1]
and exponent -3, integrate(-2, -1) evaluates the power-law closed form to
((-1)^4 - (-2)^4) / 4 = -15/4 < 0, so integrate is not nonnegative for
every constructible IMF. -/
theorem integrate_negative_counterexample :
    integrate imfNeg (-2) (-1) = -(15 / 4) ∧ ¬ (0 : ℝ) ≤ -(15 / 4) := by
  have h1 : ((-1 : ℝ)) ^ (-(-3 : ℝ) + 1) = 1 := by
    rw [show (-(-3 : ℝ) + 1) = ((4 : ℕ) : ℝ) by norm_num, Real.rpow_natCast]
    norm_num
  have h2 : ((-2 : ℝ)) ^ (-(-3 : ℝ) + 1) = 16 := by
    rw [show (-(-3 : ℝ) + 1) = ((4 : ℕ) : ℝ) by norm_num, Real.rpow_natCast]
    norm_num
  constructor
  · simp only [integrate, imfNeg]
    norm_num [Finset.sum_range_succ, h1, h2]
  · norm_num

/-- IMF with one interval, exponent exactly 1 and mass limits [2, 4]; it
passes _validate_parameters. -/
noncomputable def imfAlphaOne : IMFData := ⟨1, [1], [2, 4]⟩

/-- Claim C5 (counterexample): for the valid IMF with exponent exactly 1
and limits [2, 4], every draw of IMF.sample returns the mass 1.0 (the
inverse-CDF base is exactly 1.0 and Python evaluates 1.0 to the power
inf as 1.0), which lies outside [mass_limits[0], mass_limits[-1]] =
[2, 4]. -/
theorem sample_alpha_one_out_of_bounds :
    sample imfAlphaOne 1 (fun _ => 0) (fun _ => 1 / 2) = [1] ∧ ¬ ((2 : ℝ) ≤ 1) := by
  constructor
  · simp only [sample, sampleMass, imfAlphaOne, List.range_succ, List.range_zero,
      List.nil_append, List.map_cons, List.map_nil]
    norm_num [Real.rpow_zero]
  · norm_num

/-- Track with tabulated ages [0, 10] and field values [1, 2] on every
continuous field, used to exhibit the age clamping of
interpolate_track. -/
noncomputable def exTrack1 : STrack := ⟨[0, 10], [1, 2], [1, 2], [1, 2], [1, 2], [1, 1]⟩

/-- Claim C1 (counterexample): querying interpolate_track at age 20,
above the last tabulated age 10 of the track, returns the last tabulated
luminosity 2 (np.interp clamps), not the value 3 that linear
extrapolation between the last two tabulated points (0, 1) and (10, 2)
would give. -/
theorem interpolate_track_no_extrapolation_above :
    (interpolateTrack [(5, exTrack1)] 5 20).map StellarProps.luminosity = some 2 ∧
      (1 : ℝ) + (20 - 0) * (2 - 1) / (10 - 0) = 3 ∧ (2 : ℝ) ≠ 3 := by
  refine ⟨?_, by norm_num, by norm_num⟩
  simp only [interpolateTrack, exTrack1, singleTrackProps]
  norm_num [npInterp]

/-- Claim C1 (amended): in StellarTracks.interpolate_track every
continuous field is evaluated through np.interp, which uses the first
tabulated value at or below the first age and the last tabulated value at
or above the last age (clamping on both sides, no extrapolation above);
TrackData.interpolate_in_time instead evaluates between the last two
tabulated points above the last age (linear extrapolation forward) and
between the first two tabulated points below the first age (linear
extrapolation backward, not the first value). -/
theorem track_age_lookup_policy :
    (∀ (xp fp : List ℝ) (x : ℝ), xp ≠ [] → fp.length = xp.length → x ≤ xp.getD 0 0 →
        npInterp x xp fp = fp.getD 0 0) ∧
      (∀ (xp fp : List ℝ) (x : ℝ), xp.Chain' (· < ·) → fp.length = xp.length → xp ≠ [] →
        xp.getD (xp.length - 1) 0 ≤ x → npInterp x xp fp = fp.getD (fp.length - 1) 0) ∧
      (∀ (ages vals : List ℝ) (t : ℝ), 2 ≤ ages.length → ages.Chain' (· < ·) →
        ages.getD (ages.length - 1) 0 < t →
        interpolateInTime ages vals t =
          vals.getD (ages.length - 2) 0 +
            (t - ages.getD (ages.length - 2) 0) /
              (ages.getD (ages.length - 1) 0 - ages.getD (ages.length - 2) 0) *
            (vals.getD (ages.length - 1) 0 - vals.getD (ages.length - 2) 0)) ∧
      (∀ (ages vals : List ℝ) (t : ℝ), 2 ≤ ages.length → ages.Chain' (· < ·) →
        t < ages.getD 0 0 →
        interpolateInTime ages vals t =
          vals.getD 0 0 + (t - ages.getD 0 0) / (ages.getD 1 0 - ages.getD 0 0) *
            (vals.getD 1 0 - vals.getD 0 0)) := by
  refine ⟨fun xp fp x hxp hlen hx => npInterp_clamp_below hxp hlen hx,
    fun xp fp x hc hlen hxp hx => npInterp_clamp_above hc hlen hxp hx, ?_, ?_⟩
  · intro ages vals t hlen2 hchain ht
    have hss : ssLeft t ages = ages.length :=
      ssLeft_all_lt fun i hi =>
        lt_of_le_of_lt (chainLt_getD_le hchain i (ages.length - 1) (by omega) (by omega)) ht
    have ht0t1 : ages.getD (ages.length - 1 - 1) 0 < ages.getD (ages.length - 1) 0 :=
      chainLt_getD_lt hchain (ages.length - 1 - 1) (ages.length - 1) (by omega) (by omega)
    simp only [interpolateInTime, hss]
    rw [if_neg (by omega), if_pos le_rfl, if_pos ht0t1]
    have e2 : ages.length - 1 - 1 = ages.length - 2 := by omega
    rw [e2]
  · intro ages vals t hlen2 hchain ht
    have hss : ssLeft t ages = 0 :=
      ssLeft_eq (Nat.zero_le _) (fun i hi => absurd hi (by omega))
        (fun _ => not_lt.mpr ht.le)
    have ht0t1 : ages.getD 0 0 < ages.getD 1 0 :=
      chainLt_getD_lt hchain 0 1 (by omega) (by omega)
    simp only [interpolateInTime, hss, if_true, eq_self_iff_true]
    norm_num [ht0t1]
    intro hcontra
    exact absurd (lt_of_lt_of_le (by simpa using ht0t1) hcontra) (lt_irrefl _)

/-- Claim C1 (witness): on the two-point track with ages [0, 10] and
values [1, 2], np.interp gives 1 at age -5 and 2 at age 20, while
interpolate_in_time extrapolates to 3 at age 20 and to 1/2 at age -5. -/
theorem track_age_lookup_policy_witness :
    npInterp (-5) [0, 10] [1, 2] = 1 ∧ npInterp 20 [0, 10] [1, 2] = 2 ∧
      interpolateInTime [0, 10] [1, 2] 20 = 3 ∧
      interpolateInTime [0, 10] [1, 2] (-5) = 1 / 2 := by
  obtain ⟨c1, c2, c3, c4⟩ := track_age_lookup_policy
  refine ⟨?_, ?_, ?_, ?_⟩
  · have := c1 [0, 10] [1, 2] (-5) (by simp) (by simp) (by norm_num)
    simpa using this
  · have := c2 [0, 10] [1, 2] 20 (by norm_num [List.chain'_cons]) (by simp) (by simp)
      (by norm_num)
    simpa using this
  · have := c3 [0, 10] [1, 2] 20 (by simp) (by norm_num [List.chain'_cons]) (by norm_num)
    rw [this]
    norm_num
  · have := c4 [0, 10] [1, 2] (-5) (by simp) (by norm_num [List.chain'_cons]) (by norm_num)
    rw [this]
    norm_num

/-- Claim C4 (counterexample): both degenerate inputs pass
_validate_parameters, yet the zero-interval IMF makes xi raise IndexError
at the in-range mass 5 (exponents[-1] on an empty array), and the IMF
with a segment of exponent 1 straddling zero makes xi raise
ZeroDivisionError at mass 0 (the 1.0 / mass branch), so xi does not
return a value for every numeric input. -/
theorem xi_zero_intervals_raises :
    validateParameters 0 [] [5] = .ok () ∧
      xi ⟨0, [], [5]⟩ 5 = .error .indexError ∧
      validateParameters 1 [1] [-1, 1] = .ok () ∧
      xi ⟨1, [1], [-1, 1]⟩ 0 = .error .zeroDivisionError := by
  refine ⟨by norm_num [validateParameters], ?_, ?_, ?_⟩
  · norm_num [xi]
  · norm_num [validateParameters, List.chain'_cons]
  · norm_num [xi, ssLeft]

/-- Claim C4 (amended): for a validated IMF, xi returns 0 outside
[mass_limits[0], mass_limits[-1]]; at a nonzero mass strictly inside
segment i it returns 1/mass when the exponent is within 1e-6 of 1 or is
the tagged flat case -1, and mass^(-alpha) otherwise; and it raises
neither IndexError nor ZeroDivisionError provided the IMF has at least
one interval and a positive lower mass limit. -/
theorem xi_eval_policy (imf : IMFData)
    (hlenm : imf.massLimits.length = imf.intervals + 1)
    (hchain : imf.massLimits.Chain' (· < ·)) :
    (∀ mass : ℝ, (mass < imf.massLimits.getD 0 0 ∨
        imf.massLimits.getD (imf.massLimits.length - 1) 0 < mass) → xi imf mass = .ok 0) ∧
      (∀ (i : ℕ) (mass : ℝ), i < imf.intervals → imf.massLimits.getD i 0 < mass →
        mass < imf.massLimits.getD (i + 1) 0 → mass ≠ 0 →
        xi imf mass = .ok (if |imf.exponents.getD i 0 - 1| < 1 / 1000000 then 1 / mass
          else if imf.exponents.getD i 0 = -1 then 1 / mass
          else mass ^ (-(imf.exponents.getD i 0)))) ∧
      (1 ≤ imf.intervals → 0 < imf.massLimits.getD 0 0 →
        ∀ mass : ℝ, ∃ v, xi imf mass = .ok v) := by
  refine ⟨?_, ?_, ?_⟩
  · intro mass h
    simp only [xi]
    rw [if_pos h]
  · intro i mass hi h1 h2 hm0
    have hguard : ¬ (mass < imf.massLimits.getD 0 0 ∨
        imf.massLimits.getD (imf.massLimits.length - 1) 0 < mass) := by
      push_neg
      constructor
      · exact le_trans (chainLt_getD_le hchain 0 i (by omega) (by omega)) h1.le
      · exact le_trans h2.le (chainLt_getD_le hchain (i + 1) (imf.massLimits.length - 1)
          (by omega) (by omega))
    have hss : ssLeft mass imf.massLimits = i + 1 :=
      ssLeft_of_between hchain (by omega) h1 h2.le
    have hmin : min (ssLeft mass imf.massLimits - 1) (imf.intervals - 1) = i := by
      rw [hss]
      omega
    simp only [xi, hmin]
    rw [if_neg hguard, if_neg (by omega : ¬ imf.intervals = 0)]
    by_cases habs : |imf.exponents.getD i 0 - 1| < 1 / 1000000
    · rw [if_pos habs, if_neg hm0, if_pos habs]
    · rw [if_neg habs, if_neg habs]
      by_cases ha : imf.exponents.getD i 0 = -1
      · rw [if_neg (by simpa using ha), if_neg hm0, if_pos ha]
      · rw [if_pos ha, if_neg ha]
  · intro hn hpos mass
    by_cases hguard : (mass < imf.massLimits.getD 0 0 ∨
        imf.massLimits.getD (imf.massLimits.length - 1) 0 < mass)
    · refine ⟨0, ?_⟩
      simp only [xi]
      rw [if_pos hguard]
    · have hm0 : mass ≠ 0 := by
        push_neg at hguard
        exact ne_of_gt (lt_of_lt_of_le hpos hguard.1)
      simp only [xi]
      rw [if_neg hguard, if_neg (by omega : ¬ imf.intervals = 0)]
      by_cases habs : |imf.exponents.getD
          (min (ssLeft mass imf.massLimits - 1) (imf.intervals - 1)) 0 - 1| < 1 / 1000000
      · rw [if_pos habs, if_neg hm0]
        exact ⟨_, rfl⟩
      · rw [if_neg habs]
        by_cases ha : imf.exponents.getD
            (min (ssLeft mass imf.massLimits - 1) (imf.intervals - 1)) 0 = -1
        · rw [if_neg (by simpa using ha), if_neg hm0]
          exact ⟨_, rfl⟩
        · rw [if_pos ha]
          exact ⟨_, rfl⟩

/-- Positional access commutes with taking the mass component of a track
table. -/
theorem getD_map_fst (l : List (ℝ × STrack)) (i : ℕ) :
    (l.map Prod.fst).getD i 0 = (l.getD i (0, dummyTrack)).1 := by
  induction l generalizing i with
  | nil => simp
  | cons a l ih =>
    cases i with
    | zero => simp
    | succ n =>
      simp only [List.map_cons, List.getD_cons_succ]
      exact ih n

/-- The single-track age lookup of interpolate_track round-trips every
field at a tabulated age. -/
theorem singleTrackProps_roundtrip (tk : STrack) (htime : tk.time.Chain' (· < ·))
    (hlum : tk.luminosity.length = tk.time.length)
    (htemp : tk.temperature.length = tk.time.length)
    (hrad : tk.radius.length = tk.time.length)
    (hmdot : tk.mass_loss_rate.length = tk.time.length)
    (htyp : tk.stellar_type.length = tk.time.length)
    (j : ℕ) (hj : j < tk.time.length) :
    singleTrackProps tk (tk.time.getD j 0) =
      ⟨tk.luminosity.getD j 0, tk.temperature.getD j 0, tk.radius.getD j 0,
        tk.mass_loss_rate.getD j 0, tk.stellar_type.getD j 0⟩ := by
  have hss : ssLeft (tk.time.getD j 0) tk.time = j := ssLeft_getD_self htime hj
  have hmin : min (ssLeft (tk.time.getD j 0) tk.time) (tk.stellar_type.length - 1) = j := by
    rw [hss]
    omega
  simp only [singleTrackProps, hmin]
  rw [npInterp_roundtrip htime hlum hj, npInterp_roundtrip htime htemp hj,
    npInterp_roundtrip htime hrad hj, npInterp_roundtrip htime hmdot hj]

/-- Claim C9: interpolate_track evaluated exactly at a tabulated
(mass, age) pair of a loaded track table returns that tabulated point
exactly, on the continuous fields and on the discrete stellar type. -/
theorem interpolate_roundtrip (table : List (ℝ × STrack)) (mk : ℝ) (tk : STrack)
    (hchain : (table.map Prod.fst).Chain' (· < ·))
    (k : ℕ) (hk : k < table.length)
    (hget : table.getD k (0, dummyTrack) = (mk, tk))
    (htime : tk.time.Chain' (· < ·))
    (hlum : tk.luminosity.length = tk.time.length)
    (htemp : tk.temperature.length = tk.time.length)
    (hrad : tk.radius.length = tk.time.length)
    (hmdot : tk.mass_loss_rate.length = tk.time.length)
    (htyp : tk.stellar_type.length = tk.time.length)
    (j : ℕ) (hj : j < tk.time.length) :
    interpolateTrack table mk (tk.time.getD j 0) =
      some ⟨tk.luminosity.getD j 0, tk.temperature.getD j 0, tk.radius.getD j 0,
        tk.mass_loss_rate.getD j 0, tk.stellar_type.getD j 0⟩ := by
  have hmk : (table.map Prod.fst).getD k 0 = mk := by rw [getD_map_fst, hget]
  have hempty : table.isEmpty = false := by
    cases table
    · simp at hk
    · simp
  have hroundtrip := singleTrackProps_roundtrip tk htime hlum htemp hrad hmdot htyp j hj
  simp only [interpolateTrack, hempty, Bool.false_eq_true, if_false]
  rcases Nat.eq_zero_or_pos k with hk0 | hkpos
  · have hcond : mk ≤ (table.map Prod.fst).getD 0 0 := by
      rw [hk0] at hmk
      exact le_of_eq hmk.symm
    rw [if_pos hcond, show table.getD 0 (0, dummyTrack) = (mk, tk) from hk0 ▸ hget]
    exact congrArg some hroundtrip
  · have hc1 : ¬ mk ≤ (table.map Prod.fst).getD 0 0 := by
      push_neg
      rw [← hmk]
      exact chainLt_getD_lt hchain 0 k hkpos (by rwa [List.length_map])
    rw [if_neg hc1]
    rcases Nat.lt_or_ge k (table.length - 1) with hkmid | hklast
    · have hc2 : ¬ (table.map Prod.fst).getD ((table.map Prod.fst).length - 1) 0 ≤ mk := by
        push_neg
        rw [← hmk, List.length_map]
        exact chainLt_getD_lt hchain k (table.length - 1) hkmid
          (by rw [List.length_map]; omega)
      rw [if_neg hc2]
      have hss : ssLeft mk (table.map Prod.fst) = k := by
        rw [← hmk]
        exact ssLeft_getD_self hchain (by rwa [List.length_map])
      have hm1lt : (table.map Prod.fst).getD (k - 1) 0 < mk := by
        rw [← hmk]
        exact chainLt_getD_lt hchain (k - 1) k (by omega) (by rwa [List.length_map])
      have hne : mk - (table.map Prod.fst).getD (k - 1) 0 ≠ 0 :=
        sub_ne_zero_of_ne (ne_of_gt hm1lt)
      have hmin : min (ssLeft (tk.time.getD j 0) tk.time) (tk.stellar_type.length - 1) = j := by
        rw [ssLeft_getD_self htime hj]
        omega
      simp only [hss, hmk, hget]
      rw [npInterp_roundtrip htime hlum hj, npInterp_roundtrip htime htemp hj,
        npInterp_roundtrip htime hrad hj, npInterp_roundtrip htime hmdot hj]
      rw [sub_self, zero_div, div_self hne, hmin]
      norm_num
    · have hklen : k = table.length - 1 := by omega
      have hc2 : (table.map Prod.fst).getD ((table.map Prod.fst).length - 1) 0 ≤ mk := by
        rw [List.length_map, ← hklen, hmk]
      rw [if_pos hc2, show table.getD (table.length - 1) (0, dummyTrack) = (mk, tk) from
        hklen ▸ hget]
      exact congrArg some hroundtrip

/-- Two-track table (masses 1 and 2) used as the round-trip witness. -/
noncomputable def exTrackA : STrack := ⟨[0, 10], [1, 2], [3, 4], [5, 6], [7, 8], [11, 12]⟩

/-- Second witness track, with tabulated ages [0, 20]. -/
noncomputable def exTrackB : STrack := ⟨[0, 20], [10, 20], [30, 40], [50, 60], [70, 80], [90, 91]⟩

/-- Claim C9 (witness): on a concrete two-track table, querying at one of
the tabulated (mass, age) points returns exactly the tabulated row. -/
theorem interpolate_roundtrip_witness :
    interpolateTrack [(1, exTrackA), (2, exTrackB)] 2 20 = some ⟨20, 40, 60, 80, 91⟩ := by
  have h := interpolate_roundtrip [(1, exTrackA), (2, exTrackB)] 2 exTrackB
    (by norm_num [List.chain'_cons]) 1 (by norm_num) (by simp)
    (by norm_num [exTrackB, List.chain'_cons]) (by simp [exTrackB]) (by simp [exTrackB])
    (by simp [exTrackB]) (by simp [exTrackB]) (by simp [exTrackB]) 1 (by simp [exTrackB])
  simpa [exTrackB] using h

/-- Claim C7: when the query mass lies strictly between two adjacent
tabulated track masses m1 < m2 with final tabulated ages l1 and l2,
get_lifetime returns the log-log interpolated value l1^(1-t) * l2^t with
t = (log10 mass - log10 m1) / (log10 m2 - log10 m1): the geometric
weighting in the lifetimes, not a plain linear interpolation. -/
theorem get_lifetime_loglog (table : List (ℝ × STrack)) (m1 m2 : ℝ) (tr1 tr2 : STrack)
    (hchain : (table.map Prod.fst).Chain' (· < ·))
    (j : ℕ) (hj : j + 1 < table.length)
    (hget1 : table.getD j (0, dummyTrack) = (m1, tr1))
    (hget2 : table.getD (j + 1) (0, dummyTrack) = (m2, tr2))
    (hm1 : 0 < m1) (mass : ℝ) (h1 : m1 < mass) (h2 : mass < m2)
    (hl1 : 0 < lastAge tr1) (hl2 : 0 < lastAge tr2) :
    getLifetime table mass =
      some ((lastAge tr1) ^ (1 - (Real.logb 10 mass - Real.logb 10 m1) /
          (Real.logb 10 m2 - Real.logb 10 m1)) *
        (lastAge tr2) ^ ((Real.logb 10 mass - Real.logb 10 m1) /
          (Real.logb 10 m2 - Real.logb 10 m1))) := by
  have hmk1 : (table.map Prod.fst).getD j 0 = m1 := by rw [getD_map_fst, hget1]
  have hmk2 : (table.map Prod.fst).getD (j + 1) 0 = m2 := by rw [getD_map_fst, hget2]
  have hempty : table.isEmpty = false := by
    cases table
    · simp at hj
    · simp
  have hc1 : ¬ mass ≤ (table.map Prod.fst).getD 0 0 := by
    push_neg
    refine lt_of_le_of_lt ?_ h1
    rw [← hmk1]
    exact chainLt_getD_le hchain 0 j (by omega) (by rw [List.length_map]; omega)
  have hc2 : ¬ (table.map Prod.fst).getD ((table.map Prod.fst).length - 1) 0 ≤ mass := by
    push_neg
    refine lt_of_lt_of_le h2 ?_
    rw [← hmk2, List.length_map]
    exact chainLt_getD_le hchain (j + 1) (table.length - 1) (by omega)
      (by rw [List.length_map]; omega)
  have hss : ssLeft mass (table.map Prod.fst) = j + 1 :=
    ssLeft_of_between hchain (by rw [List.length_map]; omega) (by rw [hmk1]; exact h1)
      (by rw [hmk2]; exact h2.le)
  have hLm1 : Real.logb 10 m1 < Real.logb 10 mass :=
    Real.logb_lt_logb (by norm_num) hm1 h1
  have hLm2 : Real.logb 10 mass < Real.logb 10 m2 :=
    Real.logb_lt_logb (by norm_num) (hm1.trans h1) h2
  simp only [getLifetime, hempty, Bool.false_eq_true, if_false]
  rw [if_neg hc1, if_neg hc2]
  simp only [hss, Nat.add_sub_cancel, hget1, hget2, hmk1, hmk2]
  rw [npInterp_pair hLm1 hLm2]
  congr 1
  have hexp : Real.logb 10 (lastAge (m1, tr1).2) +
      (Real.logb 10 mass - Real.logb 10 m1) *
        (Real.logb 10 (lastAge (m2, tr2).2) - Real.logb 10 (lastAge (m1, tr1).2)) /
        (Real.logb 10 m2 - Real.logb 10 m1) =
      Real.logb 10 (lastAge tr1) * (1 - (Real.logb 10 mass - Real.logb 10 m1) /
          (Real.logb 10 m2 - Real.logb 10 m1)) +
        Real.logb 10 (lastAge tr2) * ((Real.logb 10 mass - Real.logb 10 m1) /
          (Real.logb 10 m2 - Real.logb 10 m1)) := by
    ring
  rw [hexp, Real.rpow_add (by norm_num : (0 : ℝ) < 10),
    Real.rpow_mul (by norm_num : (0 : ℝ) ≤ 10), Real.rpow_mul (by norm_num : (0 : ℝ) ≤ 10),
    Real.rpow_logb (by norm_num) (by norm_num) hl1,
    Real.rpow_logb (by norm_num) (by norm_num) hl2]

/-- Witness track with the single tabulated age 1e8 (the lifetime of the
mass-1 track). -/
noncomputable def exLifeA : STrack := ⟨[100000000], [], [], [], [], []⟩

/-- Witness track with the single tabulated age 1e7 (the lifetime of the
mass-10 track). -/
noncomputable def exLifeB : STrack := ⟨[10000000], [], [], [], [], []⟩

/-- Claim C7 (witness): for tracks at masses 1 and 10 with final ages 1e8
and 1e7, get_lifetime at the intermediate mass sqrt(10) is 10^7.5, the
geometric mean sqrt(1e8 * 1e7). -/
theorem get_lifetime_loglog_witness :
    getLifetime [(1, exLifeA), (10, exLifeB)] (Real.sqrt 10) =
        some ((10 : ℝ) ^ ((15 : ℝ) / 2)) ∧
      (10 : ℝ) ^ ((15 : ℝ) / 2) = Real.sqrt (100000000 * 10000000) := by
  have hs100 : Real.sqrt 100 = 10 := by
    rw [show (100 : ℝ) = 10 ^ 2 by norm_num, Real.sqrt_sq (by norm_num : (0 : ℝ) ≤ 10)]
  have hs1 : (1 : ℝ) < Real.sqrt 10 := by
    have := Real.sqrt_lt_sqrt (by norm_num : (0 : ℝ) ≤ 1) (by norm_num : (1 : ℝ) < 10)
    simpa using this
  have hs2 : Real.sqrt 10 < 10 := by
    have := Real.sqrt_lt_sqrt (by norm_num : (0 : ℝ) ≤ 10) (by norm_num : (10 : ℝ) < 100)
    rwa [hs100] at this
  have h := get_lifetime_loglog [(1, exLifeA), (10, exLifeB)] 1 10 exLifeA exLifeB
    (by norm_num [List.chain'_cons]) 0 (by norm_num) (by simp) (by simp)
    (by norm_num) (Real.sqrt 10) hs1 hs2
    (by norm_num [lastAge, exLifeA]) (by norm_num [lastAge, exLifeB])
  have e1 : Real.logb 10 (Real.sqrt 10) = 1 / 2 := by
    rw [show Real.sqrt 10 = (10 : ℝ) ^ ((1 : ℝ) / 2) from Real.sqrt_eq_rpow 10,
      Real.logb_rpow (by norm_num) (by norm_num)]
  have e4 : lastAge exLifeA = 100000000 := by norm_num [lastAge, exLifeA]
  have e5 : lastAge exLifeB = 10000000 := by norm_num [lastAge, exLifeB]
  constructor
  · rw [h, e1, Real.logb_one, Real.logb_self_eq_one (by norm_num : (1 : ℝ) < 10), e4, e5]
    congr 1
    rw [show (100000000 : ℝ) = (10 : ℝ) ^ ((8 : ℕ) : ℝ) from by rw [Real.rpow_natCast]; norm_num,
      show (10000000 : ℝ) = (10 : ℝ) ^ ((7 : ℕ) : ℝ) from by rw [Real.rpow_natCast]; norm_num,
      ← Real.rpow_mul (by norm_num : (0 : ℝ) ≤ 10),
      ← Real.rpow_mul (by norm_num : (0 : ℝ) ≤ 10),
      ← Real.rpow_add (by norm_num : (0 : ℝ) < 10)]
    norm_num
  · rw [show (100000000 * 10000000 : ℝ) = (10 : ℝ) ^ ((15 : ℕ) : ℝ) from by
      rw [Real.rpow_natCast]; norm_num,
      Real.sqrt_eq_rpow, ← Real.rpow_mul (by norm_num : (0 : ℝ) ≤ 10)]
    norm_num

/-- Claim C4 (witness): the Salpeter IMF (one interval, exponent 2.35,
limits [1, 100]) returns 0 at mass 1000 and the power law 10^(-2.35) at
mass 10, and returns a value at every mass. -/
theorem xi_eval_policy_witness :
    xi ⟨1, [(2.35 : ℝ)], [1, 100]⟩ 1000 = .ok 0 ∧
      xi ⟨1, [(2.35 : ℝ)], [1, 100]⟩ 10 = .ok ((10 : ℝ) ^ (-(2.35 : ℝ))) ∧
      ∃ v, xi ⟨1, [(2.35 : ℝ)], [1, 100]⟩ 0 = .ok v := by
  have h := xi_eval_policy ⟨1, [(2.35 : ℝ)], [1, 100]⟩ (by simp)
    (by norm_num [List.chain'_cons])
  refine ⟨?_, ?_, h.2.2 (by norm_num) (by norm_num) 0⟩
  · have := h.1 1000 (by norm_num)
    simpa using this
  · have := h.2.1 0 10 (by norm_num) (by norm_num) (by norm_num) (by norm_num)
    rw [this]
    norm_num [abs_lt]

/-- Claim C8: for a validated IMF, integrate over the full domain equals
the sum of integrate over the per-segment sub-ranges. -/
theorem integrate_partition (imf : IMFData)
    (hlenm : imf.massLimits.length = imf.intervals + 1)
    (hchain : imf.massLimits.Chain' (· < ·)) :
    integrate imf (imf.massLimits.getD 0 0) (imf.massLimits.getD imf.intervals 0) =
      ∑ i in Finset.range imf.intervals,
        integrate imf (imf.massLimits.getD i 0) (imf.massLimits.getD (i + 1) 0) := by
  have hlen1 : imf.massLimits.length - 1 = imf.intervals := by omega
  rcases Nat.eq_zero_or_pos imf.intervals with hn | hn
  · simp [integrate, hn, hlen1, ite_self]
  · have hmono : ∀ i j, i ≤ j → j ≤ imf.intervals →
        imf.massLimits.getD i 0 ≤ imf.massLimits.getD j 0 := fun i j hij hj =>
      chainLt_getD_le hchain i j hij (by omega)
    have hadj : ∀ i, i < imf.intervals →
        imf.massLimits.getD i 0 < imf.massLimits.getD (i + 1) 0 := fun i hi =>
      chainLt_getD_lt hchain i (i + 1) (by omega) (by omega)
    have key : ∀ i, i < imf.intervals →
        integrate imf (imf.massLimits.getD i 0) (imf.massLimits.getD (i + 1) 0) =
          (if imf.exponents.getD i 0 ≠ -1 then
            if imf.exponents.getD i 0 ≠ 1 then
              (imf.massLimits.getD (i + 1) 0 ^ (-imf.exponents.getD i 0 + 1) -
                  imf.massLimits.getD i 0 ^ (-imf.exponents.getD i 0 + 1)) /
                (-imf.exponents.getD i 0 + 1)
            else Real.log (imf.massLimits.getD (i + 1) 0 / imf.massLimits.getD i 0)
          else Real.log (imf.massLimits.getD (i + 1) 0 / imf.massLimits.getD i 0)) := by
      intro i hi
      simp only [integrate, hlen1]
      rw [max_eq_left (hmono 0 i (Nat.zero_le _) (by omega)),
        min_eq_left (hmono (i + 1) imf.intervals hi le_rfl),
        if_neg (not_le.mpr (hadj i hi))]
      have hzero : ∀ j ∈ Finset.range imf.intervals, j ≠ i →
          (if max (imf.massLimits.getD i 0) (imf.massLimits.getD j 0) <
              min (imf.massLimits.getD (i + 1) 0) (imf.massLimits.getD (j + 1) 0) then
            (if imf.exponents.getD j 0 ≠ -1 then
              if imf.exponents.getD j 0 ≠ 1 then
                (min (imf.massLimits.getD (i + 1) 0) (imf.massLimits.getD (j + 1) 0) ^
                      (-imf.exponents.getD j 0 + 1) -
                    max (imf.massLimits.getD i 0) (imf.massLimits.getD j 0) ^
                      (-imf.exponents.getD j 0 + 1)) /
                  (-imf.exponents.getD j 0 + 1)
              else Real.log (min (imf.massLimits.getD (i + 1) 0)
                  (imf.massLimits.getD (j + 1) 0) /
                max (imf.massLimits.getD i 0) (imf.massLimits.getD j 0))
            else Real.log (min (imf.massLimits.getD (i + 1) 0)
                (imf.massLimits.getD (j + 1) 0) /
              max (imf.massLimits.getD i 0) (imf.massLimits.getD j 0)))
          else 0) = 0 := by
        intro j hj hji
        rw [if_neg]
        rcases Nat.lt_or_ge j i with hji2 | hji2
        · exact not_lt.mpr (le_trans (min_le_right _ _)
            (le_trans (hmono (j + 1) i hji2 (by omega)) (le_max_left _ _)))
        · have hij : i < j := by omega
          exact not_lt.mpr (le_trans (min_le_left _ _)
            (le_trans (hmono (i + 1) j hij (le_of_lt (Finset.mem_range.mp hj)))
              (le_max_right _ _)))
      rw [Finset.sum_eq_single_of_mem i (Finset.mem_range.mpr hi) hzero,
        max_self, min_self, if_pos (hadj i hi)]
    have hLHS : integrate imf (imf.massLimits.getD 0 0)
        (imf.massLimits.getD imf.intervals 0) =
        ∑ i in Finset.range imf.intervals,
          (if imf.exponents.getD i 0 ≠ -1 then
            if imf.exponents.getD i 0 ≠ 1 then
              (imf.massLimits.getD (i + 1) 0 ^ (-imf.exponents.getD i 0 + 1) -
                  imf.massLimits.getD i 0 ^ (-imf.exponents.getD i 0 + 1)) /
                (-imf.exponents.getD i 0 + 1)
            else Real.log (imf.massLimits.getD (i + 1) 0 / imf.massLimits.getD i 0)
          else Real.log (imf.massLimits.getD (i + 1) 0 / imf.massLimits.getD i 0)) := by
      simp only [integrate, hlen1]
      rw [max_self, min_self,
        if_neg (not_le.mpr (chainLt_getD_lt hchain 0 imf.intervals hn (by omega)))]
      refine Finset.sum_congr rfl fun i hi => ?_
      have hi2 := Finset.mem_range.mp hi
      rw [max_eq_right (hmono 0 i (Nat.zero_le _) (by omega)),
        min_eq_right (hmono (i + 1) imf.intervals hi2 le_rfl),
        if_pos (hadj i hi2)]
    rw [hLHS]
    exact Finset.sum_congr rfl fun i hi => (key i (Finset.mem_range.mp hi)).symm

/-- Claim C8 (witness): for the two-segment IMF with limits [1, 10, 100],
the full-domain integral splits into the two segment integrals. -/
theorem integrate_partition_witness :
    integrate ⟨2, [(2 : ℝ), 3], [1, 10, 100]⟩ 1 100 =
      integrate ⟨2, [(2 : ℝ), 3], [1, 10, 100]⟩ 1 10 +
        integrate ⟨2, [(2 : ℝ), 3], [1, 10, 100]⟩ 10 100 := by
  have h := integrate_partition ⟨2, [(2 : ℝ), 3], [1, 10, 100]⟩ (by norm_num)
    (by norm_num [List.chain'_cons])
  simpa [Finset.sum_range_succ] using h

/-- Claim C10 (amended): for a validated IMF whose mass limits are
positive, integrate is nonnegative for every pair of float arguments, and
returns exactly 0 when the range clamped to the IMF domain is empty or
inverted. -/
theorem integrate_nonneg (imf : IMFData)
    (_hchain : imf.massLimits.Chain' (· < ·))
    (hpos : 0 < imf.massLimits.getD 0 0) :
    ∀ mLow mHigh : ℝ, 0 ≤ integrate imf mLow mHigh ∧
      (min mHigh (imf.massLimits.getD (imf.massLimits.length - 1) 0) ≤
          max mLow (imf.massLimits.getD 0 0) →
        integrate imf mLow mHigh = 0) := by
  intro mLow mHigh
  constructor
  · by_cases hab : min mHigh (imf.massLimits.getD (imf.massLimits.length - 1) 0) ≤
        max mLow (imf.massLimits.getD 0 0)
    · simp only [integrate]
      rw [if_pos hab]
    · simp only [integrate]
      rw [if_neg hab]
      refine Finset.sum_nonneg fun i hi => ?_
      by_cases huv : max (max mLow (imf.massLimits.getD 0 0)) (imf.massLimits.getD i 0) <
          min (min mHigh (imf.massLimits.getD (imf.massLimits.length - 1) 0))
            (imf.massLimits.getD (i + 1) 0)
      · rw [if_pos huv]
        have hu : 0 < max (max mLow (imf.massLimits.getD 0 0)) (imf.massLimits.getD i 0) :=
          lt_of_lt_of_le hpos (le_trans (le_max_right mLow _) (le_max_left _ _))
        by_cases ha1 : imf.exponents.getD i 0 ≠ -1
        · by_cases ha2 : imf.exponents.getD i 0 ≠ 1
          · rw [if_pos ha1, if_pos ha2]
            have hp0 : -imf.exponents.getD i 0 + 1 ≠ 0 := fun h => ha2 (by linarith)
            rcases lt_or_gt_of_ne hp0 with hpneg | hppos
            · have hle := Real.rpow_le_rpow_of_nonpos hu (le_of_lt huv) (le_of_lt hpneg)
              exact div_nonneg_of_nonpos (by linarith) (by linarith)
            · have hle := Real.rpow_le_rpow (le_of_lt hu) (le_of_lt huv) (le_of_lt hppos)
              exact div_nonneg (by linarith) (by linarith)
          · rw [if_pos ha1, if_neg ha2]
            exact Real.log_nonneg ((one_le_div hu).mpr (le_of_lt huv))
        · rw [if_neg ha1]
          exact Real.log_nonneg ((one_le_div hu).mpr (le_of_lt huv))
      · rw [if_neg huv]
  · intro h
    simp only [integrate]
    rw [if_pos h]

/-- Claim C10 (witness): for the Salpeter IMF the clamped integral of a
partly-overlapping range is nonnegative, and a range entirely above the
domain clamps to an inverted range and yields exactly 0. -/
theorem integrate_nonneg_witness :
    0 ≤ integrate ⟨1, [(2.35 : ℝ)], [1, 100]⟩ 0 50 ∧
      integrate ⟨1, [(2.35 : ℝ)], [1, 100]⟩ 200 300 = 0 := by
  have h1 := integrate_nonneg ⟨1, [(2.35 : ℝ)], [1, 100]⟩
    (by norm_num [List.chain'_cons]) (by norm_num) 0 50
  have h2 := integrate_nonneg ⟨1, [(2.35 : ℝ)], [1, 100]⟩
    (by norm_num [List.chain'_cons]) (by norm_num) 200 300
  exact ⟨h1.1, h2.2 (by norm_num)⟩

/-- One inverse-CDF draw lands inside its segment, provided the segment
exponent is not the degenerate value 1 and the limits are positive. -/
theorem sampleMass_mem_segment (imf : IMFData)
    (hchain : imf.massLimits.Chain' (· < ·))
    (hpos : 0 < imf.massLimits.getD 0 0)
    (hlenm : imf.massLimits.length = imf.intervals + 1)
    (i : ℕ) (hi : i < imf.intervals)
    (hexpi : imf.exponents.getD i 0 ≠ 1)
    (u : ℝ) (hu0 : 0 ≤ u) (hu1 : u ≤ 1) :
    imf.massLimits.getD i 0 ≤ sampleMass imf i u ∧
      sampleMass imf i u ≤ imf.massLimits.getD (i + 1) 0 := by
  have ha : 0 < imf.massLimits.getD i 0 :=
    lt_of_lt_of_le hpos (chainLt_getD_le hchain 0 i (Nat.zero_le _) (by omega))
  have hab : imf.massLimits.getD i 0 < imf.massLimits.getD (i + 1) 0 :=
    chainLt_getD_lt hchain i (i + 1) (by omega) (by omega)
  have hb : 0 < imf.massLimits.getD (i + 1) 0 := ha.trans hab
  simp only [sampleMass]
  by_cases hane : imf.exponents.getD i 0 ≠ -1
  · rw [if_pos hane]
    have hp0 : -imf.exponents.getD i 0 + 1 ≠ 0 := fun h => hexpi (by linarith)
    have haP : 0 < imf.massLimits.getD i 0 ^ (-imf.exponents.getD i 0 + 1) :=
      Real.rpow_pos_of_pos ha _
    have hbP : 0 < imf.massLimits.getD (i + 1) 0 ^ (-imf.exponents.getD i 0 + 1) :=
      Real.rpow_pos_of_pos hb _
    have hback : ∀ x : ℝ, 0 < x →
        (x ^ (-imf.exponents.getD i 0 + 1)) ^ (1 / (-imf.exponents.getD i 0 + 1)) = x := by
      intro x hx
      rw [← Real.rpow_mul hx.le, mul_one_div_cancel hp0, Real.rpow_one]
    rcases lt_or_gt_of_ne hp0 with hpneg | hppos
    · have hba : imf.massLimits.getD (i + 1) 0 ^ (-imf.exponents.getD i 0 + 1) ≤
          imf.massLimits.getD i 0 ^ (-imf.exponents.getD i 0 + 1) :=
        Real.rpow_le_rpow_of_nonpos ha hab.le hpneg.le
      have hinner1 : imf.massLimits.getD (i + 1) 0 ^ (-imf.exponents.getD i 0 + 1) ≤
          u * (imf.massLimits.getD (i + 1) 0 ^ (-imf.exponents.getD i 0 + 1) -
              imf.massLimits.getD i 0 ^ (-imf.exponents.getD i 0 + 1)) +
            imf.massLimits.getD i 0 ^ (-imf.exponents.getD i 0 + 1) := by nlinarith
      have hinner2 : u * (imf.massLimits.getD (i + 1) 0 ^ (-imf.exponents.getD i 0 + 1) -
              imf.massLimits.getD i 0 ^ (-imf.exponents.getD i 0 + 1)) +
            imf.massLimits.getD i 0 ^ (-imf.exponents.getD i 0 + 1) ≤
          imf.massLimits.getD i 0 ^ (-imf.exponents.getD i 0 + 1) := by nlinarith
      have hinnerpos : 0 < u * (imf.massLimits.getD (i + 1) 0 ^
              (-imf.exponents.getD i 0 + 1) -
              imf.massLimits.getD i 0 ^ (-imf.exponents.getD i 0 + 1)) +
            imf.massLimits.getD i 0 ^ (-imf.exponents.getD i 0 + 1) :=
        lt_of_lt_of_le hbP hinner1
      constructor
      · have := Real.rpow_le_rpow_of_nonpos hinnerpos hinner2
          (le_of_lt (one_div_neg.mpr hpneg))
        rw [hback _ ha] at this
        exact this
      · have := Real.rpow_le_rpow_of_nonpos hbP hinner1
          (le_of_lt (one_div_neg.mpr hpneg))
        rw [hback _ hb] at this
        exact this
    · have hba : imf.massLimits.getD i 0 ^ (-imf.exponents.getD i 0 + 1) ≤
          imf.massLimits.getD (i + 1) 0 ^ (-imf.exponents.getD i 0 + 1) :=
        Real.rpow_le_rpow ha.le hab.le hppos.le
      have hinner1 : imf.massLimits.getD i 0 ^ (-imf.exponents.getD i 0 + 1) ≤
          u * (imf.massLimits.getD (i + 1) 0 ^ (-imf.exponents.getD i 0 + 1) -
              imf.massLimits.getD i 0 ^ (-imf.exponents.getD i 0 + 1)) +
            imf.massLimits.getD i 0 ^ (-imf.exponents.getD i 0 + 1) := by nlinarith
      have hinner2 : u * (imf.massLimits.getD (i + 1) 0 ^ (-imf.exponents.getD i 0 + 1) -
              imf.massLimits.getD i 0 ^ (-imf.exponents.getD i 0 + 1)) +
            imf.massLimits.getD i 0 ^ (-imf.exponents.getD i 0 + 1) ≤
          imf.massLimits.getD (i + 1) 0 ^ (-imf.exponents.getD i 0 + 1) := by nlinarith
      constructor
      · have := Real.rpow_le_rpow haP.le hinner1 (le_of_lt (one_div_pos.mpr hppos))
        rw [hback _ ha] at this
        exact this
      · have := Real.rpow_le_rpow (le_trans haP.le hinner1) hinner2
          (le_of_lt (one_div_pos.mpr hppos))
        rw [hback _ hb] at this
        exact this
  · rw [if_neg hane]
    have hr : 1 ≤ imf.massLimits.getD (i + 1) 0 / imf.massLimits.getD i 0 :=
      (one_le_div ha).mpr hab.le
    have h1 : (1 : ℝ) ≤ (imf.massLimits.getD (i + 1) 0 / imf.massLimits.getD i 0) ^ u := by
      rw [show (1 : ℝ) = (imf.massLimits.getD (i + 1) 0 / imf.massLimits.getD i 0) ^ (0 : ℝ)
        from (Real.rpow_zero _).symm]
      exact Real.rpow_le_rpow_of_exponent_le hr hu0
    have h2 : (imf.massLimits.getD (i + 1) 0 / imf.massLimits.getD i 0) ^ u ≤
        imf.massLimits.getD (i + 1) 0 / imf.massLimits.getD i 0 := by
      nth_rewrite 2 [show imf.massLimits.getD (i + 1) 0 / imf.massLimits.getD i 0 =
        (imf.massLimits.getD (i + 1) 0 / imf.massLimits.getD i 0) ^ (1 : ℝ)
        from (Real.rpow_one _).symm]
      exact Real.rpow_le_rpow_of_exponent_le hr hu1
    constructor
    · nlinarith
    · have := mul_le_mul_of_nonneg_left h2 ha.le
      calc imf.massLimits.getD i 0 *
            (imf.massLimits.getD (i + 1) 0 / imf.massLimits.getD i 0) ^ u ≤
          imf.massLimits.getD i 0 *
            (imf.massLimits.getD (i + 1) 0 / imf.massLimits.getD i 0) := this
        _ = imf.massLimits.getD (i + 1) 0 := by
          rw [← mul_div_assoc]
          exact mul_div_cancel_left₀ _ (ne_of_gt ha)

/-- Claim C5 (amended): IMF.sample is a pure function of (n, seed) once
the numpy draws are fixed by the seed (determinism), always returns
exactly n masses, returns the empty sequence for n = 0, and, provided the
validated IMF has positive mass limits and no segment exponent equal to
the degenerate value 1, every returned mass lies within
[mass_limits[0], mass_limits[-1]]. -/
theorem sample_spec_properties (imf : IMFData)
    (hlenm : imf.massLimits.length = imf.intervals + 1)
    (hchain : imf.massLimits.Chain' (· < ·))
    (hpos : 0 < imf.massLimits.getD 0 0)
    (hexp : ∀ i, i < imf.intervals → imf.exponents.getD i 0 ≠ 1)
    (cs : ℕ → ℕ) (us : ℕ → ℝ)
    (hcs : ∀ k, cs k < imf.intervals)
    (hus : ∀ k, 0 ≤ us k ∧ us k ≤ 1) (n : ℕ) :
    (sample imf n cs us).length = n ∧
      sample imf 0 cs us = [] ∧
      (∀ cs2 us2, cs = cs2 → us = us2 → sample imf n cs us = sample imf n cs2 us2) ∧
      ∀ m ∈ sample imf n cs us,
        imf.massLimits.getD 0 0 ≤ m ∧
          m ≤ imf.massLimits.getD (imf.massLimits.length - 1) 0 := by
  refine ⟨by simp [sample], by simp [sample], ?_, ?_⟩
  · intro cs2 us2 h1 h2
    rw [h1, h2]
  · intro m hm
    simp only [sample, List.mem_map, List.mem_range] at hm
    obtain ⟨k, hk, hmk⟩ := hm
    have hi := hcs k
    have hbnd := sampleMass_mem_segment imf hchain hpos hlenm (cs k) hi
      (hexp _ hi) (us k) (hus k).1 (hus k).2
    rw [← hmk]
    constructor
    · exact le_trans (chainLt_getD_le hchain 0 (cs k) (Nat.zero_le _) (by omega)) hbnd.1
    · exact le_trans hbnd.2
        (chainLt_getD_le hchain (cs k + 1) (imf.massLimits.length - 1) (by omega) (by omega))

/-- Claim C5 (witness): for the Salpeter IMF, sampling two stars yields
two masses, sampling zero stars yields the empty list, and a concrete
draw lands inside [1, 100]. -/
theorem sample_spec_properties_witness :
    (sample ⟨1, [(2.35 : ℝ)], [1, 100]⟩ 2 (fun _ => 0) (fun _ => 1 / 2)).length = 2 ∧
      sample ⟨1, [(2.35 : ℝ)], [1, 100]⟩ 0 (fun _ => 0) (fun _ => 1 / 2) = [] ∧
      (1 : ℝ) ≤ sampleMass ⟨1, [(2.35 : ℝ)], [1, 100]⟩ 0 (1 / 2) ∧
      sampleMass ⟨1, [(2.35 : ℝ)], [1, 100]⟩ 0 (1 / 2) ≤ 100 := by
  have h := sample_spec_properties ⟨1, [(2.35 : ℝ)], [1, 100]⟩ (by norm_num)
    (by norm_num [List.chain'_cons]) (by norm_num)
    (fun i hi => by
      have hi2 : i < 1 := hi
      have h0 : i = 0 := by omega
      subst h0
      norm_num)
    (fun _ => 0) (fun _ => 1 / 2) (fun k => by norm_num) (fun k => by norm_num) 2
  have hmem : sampleMass ⟨1, [(2.35 : ℝ)], [1, 100]⟩ 0 (1 / 2) ∈
      sample ⟨1, [(2.35 : ℝ)], [1, 100]⟩ 2 (fun _ => 0) (fun _ => 1 / 2) := by
    simp only [sample, List.mem_map, List.mem_range]
    exact ⟨0, by norm_num, trivial⟩
  have hb := h.2.2.2 _ hmem
  exact ⟨h.1, h.2.1, by simpa using hb.1, by simpa using hb.2⟩

end Starburst
